import Mathlib

/-!
Verification of the signature-extraction pipeline in src/main.go.

The pipeline has two stages:
* extractSignature (src/main.go:34-88): decode an image, convert to
  grayscale, inverse-binary-threshold at 200, find the external contours
  of the foreground, pick the contour with the largest bounding-rectangle
  area, and crop that rectangle from the original color image.
* removeWhiteBackground (src/main.go:92-125): per pixel, if all three
  channels exceed 200 output a transparent white pixel, otherwise keep
  the pixel's RGB fully opaque.

The Go code calls into gocv/OpenCV.  Those library calls are embedded with
OpenCV's documented semantics:
* cvtColor BGR2GRAY uses the fixed-point luminance weights
  (4899*R + 9617*G + 1868*B + 8192) >> 14 (coefficients R2Y, G2Y, B2Y with
  yuv_shift = 14).
* threshold with THRESH_BINARY_INV maps a source value v to 0 when
  v > thresh and to maxval otherwise.
* findContours with RETR_EXTERNAL returns one outer contour per
  8-connected component of the nonzero pixels; boundingRect of such a
  contour is the axis-aligned bounding box of the component (the outer
  contour attains the extreme coordinates).  Since the Go code only ever
  consumes bounding rectangles and the contour count, we embed this pair
  of calls as the list of bounding boxes of the 8-connected foreground
  components, discovered by raster scan.
Pixel channels are Nat values (bytes 0..255 in the Go code); rectangle
areas, stored as float64 in Go, are exact for any realistic image size
(products below 2^53), so they are embedded as Nat.
-/

set_option maxRecDepth 200000

namespace PocPdf

/-- A color pixel: red, green and blue channel intensities (bytes in the
Go code).  The Go code reads a BGR Mat via GetVecbAt and indexes the
channels explicitly (b = vec[0], g = vec[1], r = vec[2]); the record
abstracts the memory order while keeping the channel names. -/
structure RGB where
  r : Nat
  g : Nat
  b : Nat
deriving DecidableEq

/-- A pixel of the output image.Image: red, green, blue plus alpha. -/
structure RGBA where
  r : Nat
  g : Nat
  b : Nat
  a : Nat
deriving DecidableEq

/-- A gocv.Mat holding a color image: dimensions, channel count, and the
pixel grid (meaningful for y < rows, x < cols). -/
structure Mat where
  rows : Nat
  cols : Nat
  channels : Nat
  pix : Nat → Nat → RGB

/-- The Go image.RGBA produced by removeWhiteBackground. -/
structure RGBAImg where
  rows : Nat
  cols : Nat
  pix : Nat → Nat → RGBA

/-- An image.Rectangle as produced by gocv.BoundingRect: left, top, width,
height (Dx = w, Dy = h). -/
structure Rect where
  x : Nat
  y : Nat
  w : Nat
  h : Nat
deriving DecidableEq

/-- A pixel coordinate (row, column). -/
abbrev Cell : Type := Nat × Nat

/-- OpenCV BGR-to-gray conversion (gocv.CvtColor with ColorBGRToGray,
src/main.go:44): fixed-point luminance with coefficients summing to
2^14 = 16384 and rounding by adding 2^13. -/
def grayAt (m : Mat) (y x : Nat) : Nat :=
  (4899 * (m.pix y x).r + 9617 * (m.pix y x).g + 1868 * (m.pix y x).b + 8192) / 16384

/-- OpenCV threshold with type THRESH_BINARY_INV: values strictly above
thresh go to 0, all others to maxval. -/
def thresholdBinaryInv (thresh maxval v : Nat) : Nat :=
  if thresh < v then 0 else maxval

/-- The binary mask built at src/main.go:52:
gocv.Threshold(gray, bin, 200, 255, gocv.ThresholdBinaryInv). -/
def maskAt (m : Mat) (y x : Nat) : Nat :=
  thresholdBinaryInv 200 255 (grayAt m y x)

/-- A mask pixel is foreground when it is nonzero (findContours treats
every nonzero pixel as foreground). -/
def isFg (m : Mat) (c : Cell) : Bool :=
  maskAt m c.1 c.2 != 0

/-- All pixel coordinates of an image, in raster order. -/
def allCells (rows cols : Nat) : List Cell :=
  (List.range rows).flatMap (fun y => (List.range cols).map (fun x => (y, x)))

/-- The foreground cells of the thresholded mask of an image, in raster
order. -/
def fgCells (m : Mat) : List Cell :=
  (allCells m.rows m.cols).filter (isFg m)

/-- 8-neighborhood adjacency of two distinct cells (findContours connects
foreground pixels with 8-connectivity). -/
def Adj (p q : Cell) : Prop :=
  p ≠ q ∧ p.1 ≤ q.1 + 1 ∧ q.1 ≤ p.1 + 1 ∧ p.2 ≤ q.2 + 1 ∧ q.2 ≤ p.2 + 1

instance (p q : Cell) : Decidable (Adj p q) := by
  unfold Adj; infer_instance

/-- One parallel growth step of a component: adjoin every foreground cell
adjacent to the current set. -/
def growOnce (fg S : List Cell) : List Cell :=
  S ++ fg.filter (fun c => decide (c ∉ S ∧ ∃ s ∈ S, Adj s c))

/-- Iterated growth. -/
def closure (fg : List Cell) : Nat → List Cell → List Cell
  | 0, S => S
  | n + 1, S => closure fg n (growOnce fg S)

/-- The 8-connected component of a seed cell within the foreground:
fg.length growth steps suffice to reach the fixed point. -/
def component (fg : List Cell) (seed : Cell) : List Cell :=
  closure fg fg.length [seed]

/-- Raster scan collecting one component per not-yet-visited foreground
cell. -/
def componentsAux (fg : List Cell) : List Cell → List Cell → List (List Cell)
  | [], _ => []
  | c :: rest, seen =>
    if c ∈ seen then componentsAux fg rest seen
    else component fg c :: componentsAux fg rest (seen ++ component fg c)

/-- The 8-connected components of the foreground, one cell list per
component — the embedding of gocv.FindContours with RetrievalExternal
(src/main.go:56), keeping the full component instead of its outer contour
since only bounding geometry and the count are consumed. -/
def componentsOf (fg : List Cell) : List (List Cell) :=
  componentsAux fg fg []

/-- gocv.BoundingRect of a point set: minimal axis-aligned rectangle
containing the points, with w = maxX - minX + 1 and h = maxY - minY + 1. -/
def boundingRect (pts : List Cell) : Rect :=
  match pts with
  | [] => ⟨0, 0, 0, 0⟩
  | p :: ps =>
    let y0 := ps.foldl (fun a q => min a q.1) p.1
    let y1 := ps.foldl (fun a q => max a q.1) p.1
    let x0 := ps.foldl (fun a q => min a q.2) p.2
    let x1 := ps.foldl (fun a q => max a q.2) p.2
    ⟨x0, y0, x1 - x0 + 1, y1 - y0 + 1⟩

/-- One iteration of the selection loop at src/main.go:69-78: replace the
running maximum when this contour's bounding-rectangle area is strictly
larger. -/
def selectStep (acc : Nat × Rect) (c : List Cell) : Nat × Rect :=
  if (boundingRect c).w * (boundingRect c).h > acc.1 then
    ((boundingRect c).w * (boundingRect c).h, boundingRect c)
  else acc

/-- The selection loop at src/main.go:64-78: running maximum over the
contours, starting from maxArea = 0 and the zero rectangle. -/
def largestRect (contours : List (List Cell)) : Rect :=
  (contours.foldl selectStep (0, ⟨0, 0, 0, 0⟩)).2

/-- img.Region(rect) followed by Clone (src/main.go:81-84): an independent
copy of the sub-rectangle of the color image. -/
def crop (img : Mat) (r : Rect) : Mat :=
  ⟨r.h, r.w, img.channels, fun y x => img.pix (r.y + y) (r.x + x)⟩

/-- The two failure modes of extractSignature: the unreadable/empty image
error at src/main.go:38 and the no-contours error at src/main.go:61. -/
inductive ExtractErr where
  | invalidInput
  | noRegionFound
deriving DecidableEq

/-- extractSignature (src/main.go:34-88).  The argument models the result
of gocv.IMRead: none when the file cannot be decoded (IMRead then yields
an empty Mat); a zero-sized decoded image is likewise empty
(img.Empty()). -/
def extractSignature (decoded : Option Mat) : Except ExtractErr (Rect × Mat) :=
  match decoded with
  | none => .error .invalidInput
  | some img =>
    if img.rows = 0 ∨ img.cols = 0 then .error .invalidInput
    else if componentsOf (fgCells img) = [] then .error .noRegionFound
    else .ok (largestRect (componentsOf (fgCells img)),
              crop img (largestRect (componentsOf (fgCells img))))

/-- The failure mode of removeWhiteBackground (src/main.go:95). -/
inductive MattingErr where
  | unsupportedChannelCount
deriving DecidableEq

/-- The per-pixel classification at src/main.go:113-120: near-white
(all channels strictly above 200) becomes transparent white, everything
else keeps its RGB fully opaque. -/
def mattePixel (p : RGB) : RGBA :=
  if 200 < p.r ∧ 200 < p.g ∧ 200 < p.b then ⟨255, 255, 255, 0⟩
  else ⟨p.r, p.g, p.b, 255⟩

/-- removeWhiteBackground (src/main.go:92-125): reject non-3-channel
input, otherwise classify every pixel independently. -/
def removeWhiteBackground (input : Mat) : Except MattingErr RGBAImg :=
  if input.channels ≠ 3 then .error .unsupportedChannelCount
  else .ok ⟨input.rows, input.cols, fun y x => mattePixel (input.pix y x)⟩

/-- The per-pixel classification with the three channel cutoffs as
parameters, used to document that the code's behavior is the fixed
(200, 200, 200) instance. -/
def mattePixelWith (tr tg tb : Nat) (p : RGB) : RGBA :=
  if tr < p.r ∧ tg < p.g ∧ tb < p.b then ⟨255, 255, 255, 0⟩
  else ⟨p.r, p.g, p.b, 255⟩

/-- The cells of a solid rectangle, in raster order. -/
def rectCells (r : Rect) : List Cell :=
  (List.range r.h).flatMap (fun j => (List.range r.w).map (fun i => (r.y + j, r.x + i)))

/-- The synthetic end-to-end input: a 100x100 white page with a 20x20
black square whose top-left corner is at (40, 40). -/
def testPage : Mat :=
  ⟨100, 100, 3, fun y x =>
    if 40 ≤ y ∧ y < 60 ∧ 40 ≤ x ∧ x < 60 then ⟨0, 0, 0⟩ else ⟨255, 255, 255⟩⟩

/-! ## Concrete images used as counterexamples and witnesses -/

/-- A 1x1 image whose single pixel has gray value exactly 200. -/
def grayBoundary : Mat :=
  ⟨1, 1, 3, fun _ _ => ⟨200, 200, 200⟩⟩

/-- A 2x2 image holding the four boundary pixels named by the spec's
matting test cases. -/
def c2mat : Mat :=
  ⟨2, 2, 3, fun y x =>
    if y = 0 ∧ x = 0 then ⟨255, 255, 255⟩
    else if y = 0 ∧ x = 1 then ⟨201, 201, 201⟩
    else if y = 1 ∧ x = 0 then ⟨200, 200, 200⟩
    else ⟨10, 10, 10⟩⟩

/-- The input image rebuilt from a matted output: reuse the RGB channels,
discard alpha (3-channel by construction). -/
def matOfOutput (o : RGBAImg) : Mat :=
  ⟨o.rows, o.cols, 3, fun y x => ⟨(o.pix y x).r, (o.pix y x).g, (o.pix y x).b⟩⟩

/-- A degenerate 0x5 three-channel image. -/
def zeroRowsMat : Mat :=
  ⟨0, 5, 3, fun _ _ => ⟨0, 0, 0⟩⟩

/-! ## C1: the thresholding boundary -/

/-- C1 counterexample: the claim says a pixel is FOREGROUND iff its gray
intensity is strictly below 200.  A pixel of gray intensity exactly 200 is
classified FOREGROUND (mask value 255) by the code, refuting the claimed
equivalence. -/
theorem thresh_boundary_cex :
    grayAt grayBoundary 0 0 = 200 ∧ maskAt grayBoundary 0 0 = 255 ∧
      ¬ (maskAt grayBoundary 0 0 ≠ 0 ↔ grayAt grayBoundary 0 0 < 200) := by
  decide

/-- C1 amended: a pixel is FOREGROUND (mask value 255) iff its gray
intensity is at most the cutoff 200, and BACKGROUND (mask value 0) iff
the intensity is strictly greater than 200 — THRESH_BINARY_INV includes
the cutoff value itself in the foreground. -/
theorem thresh_foreground_iff_le (m : Mat) (y x : Nat) :
    (maskAt m y x = 255 ↔ grayAt m y x ≤ 200) ∧
      (maskAt m y x = 0 ↔ 200 < grayAt m y x) := by
  unfold maskAt thresholdBinaryInv
  split <;> omega

/-! ## C2: the per-pixel matting rule -/

/-- C2: for a 3-channel input, every output pixel is transparent
(alpha 0, fixed white color) exactly when all three input channels are
strictly above 200, and otherwise is fully opaque with the input RGB
preserved unchanged. -/
theorem matte_pixel_rule (m : Mat) (out : RGBAImg)
    (h : removeWhiteBackground m = .ok out) (y x : Nat)
    (_hy : y < m.rows) (_hx : x < m.cols) :
    ((out.pix y x).a = 0 ↔
        (200 < (m.pix y x).r ∧ 200 < (m.pix y x).g ∧ 200 < (m.pix y x).b)) ∧
      ((out.pix y x).a = 0 → out.pix y x = ⟨255, 255, 255, 0⟩) ∧
      ((out.pix y x).a ≠ 0 →
        out.pix y x = ⟨(m.pix y x).r, (m.pix y x).g, (m.pix y x).b, 255⟩) := by
  unfold removeWhiteBackground at h
  split at h
  · exact absurd h (by simp)
  · rw [Except.ok.injEq] at h
    subst h
    simp only [mattePixel]
    split <;> simp_all

/-- C2 witness: the four boundary pixels of the spec evaluated through
the theorem: (255,255,255) and (201,201,201) become transparent,
(200,200,200) and (10,10,10) stay opaque with RGB preserved. -/
theorem matte_pixel_rule_check :
    ∃ out, removeWhiteBackground c2mat = .ok out ∧
      (out.pix 0 0).a = 0 ∧ (out.pix 0 1).a = 0 ∧
      out.pix 1 0 = ⟨200, 200, 200, 255⟩ ∧ out.pix 1 1 = ⟨10, 10, 10, 255⟩ := by
  refine ⟨_, rfl, ?_, ?_, ?_, ?_⟩
  · exact (matte_pixel_rule c2mat _ rfl 0 0 (by decide) (by decide)).1.mpr (by decide)
  · exact (matte_pixel_rule c2mat _ rfl 0 1 (by decide) (by decide)).1.mpr (by decide)
  · exact (matte_pixel_rule c2mat _ rfl 1 0 (by decide) (by decide)).2.2 (by decide)
  · exact (matte_pixel_rule c2mat _ rfl 1 1 (by decide) (by decide)).2.2 (by decide)

/-! ## C6: the thresholds are hard-coded -/

/-- C6: the code's binarization and matting are the fixed instances of the
parameterized operations at cutoff 200 — the 200s are hard-coded constants
inside extractSignature (src/main.go:52) and removeWhiteBackground
(src/main.go:114), not caller-supplied parameters. -/
theorem thresholds_fixed_at_200 :
    (∀ (m : Mat) (y x : Nat), maskAt m y x = thresholdBinaryInv 200 255 (grayAt m y x)) ∧
      (∀ p : RGB, mattePixel p = mattePixelWith 200 200 200 p) :=
  ⟨fun _ _ _ => rfl, fun _ => rfl⟩

/-! ## C7: matting is idempotent on alpha decisions -/

/-- C7: re-running the matting on its own output's RGB channels (alpha
discarded) reproduces the same per-pixel alpha values, since the
classification is a pure function of RGB. -/
theorem matting_idempotent (m : Mat) (out out' : RGBAImg)
    (h : removeWhiteBackground m = .ok out)
    (h' : removeWhiteBackground (matOfOutput out) = .ok out') (y x : Nat) :
    (out'.pix y x).a = (out.pix y x).a := by
  unfold removeWhiteBackground at h h'
  split at h
  · exact absurd h (by simp)
  · rw [Except.ok.injEq] at h
    subst h
    split at h'
    · exact absurd h' (by simp [matOfOutput])
    · rw [Except.ok.injEq] at h'
      subst h'
      simp only [matOfOutput, mattePixel]
      by_cases hw : 200 < (m.pix y x).r ∧ 200 < (m.pix y x).g ∧ 200 < (m.pix y x).b
      · simp [hw]
      · simp [hw]

/-- C7 witness: the idempotence theorem applied to the concrete boundary
image. -/
theorem matting_idempotent_check :
    ∃ out out', removeWhiteBackground c2mat = .ok out ∧
      removeWhiteBackground (matOfOutput out) = .ok out' ∧
      (out'.pix 0 0).a = (out.pix 0 0).a ∧ (out'.pix 1 1).a = (out.pix 1 1).a :=
  ⟨_, _, rfl, rfl,
    matting_idempotent c2mat _ _ rfl rfl 0 0,
    matting_idempotent c2mat _ _ rfl rfl 1 1⟩

/-! ## C10: degenerate dimensions are accepted -/

/-- C10: matting succeeds exactly when the channel count is 3 — in
particular a 3-channel input with zero rows or zero columns yields a
successful zero-sized output of the same dimensions, not an error. -/
theorem matting_degenerate_ok (m : Mat) :
    ((∃ out, removeWhiteBackground m = .ok out) ↔ m.channels = 3) ∧
      (m.channels = 3 → m.rows = 0 ∨ m.cols = 0 →
        ∃ out, removeWhiteBackground m = .ok out ∧
          out.rows = m.rows ∧ out.cols = m.cols ∧ (out.rows = 0 ∨ out.cols = 0)) := by
  constructor
  · constructor
    · rintro ⟨out, hout⟩
      unfold removeWhiteBackground at hout
      split at hout
      · exact absurd hout (by simp)
      · omega
    · intro h3
      exact ⟨⟨m.rows, m.cols, fun y x => mattePixel (m.pix y x)⟩, by
        unfold removeWhiteBackground; simp [h3]⟩
  · intro h3 hdeg
    exact ⟨⟨m.rows, m.cols, fun y x => mattePixel (m.pix y x)⟩, by
      unfold removeWhiteBackground; simp [h3], rfl, rfl, hdeg⟩

/-- C10 witness: the 0x5 three-channel image is accepted and produces a
0x5 output. -/
theorem matting_degenerate_ok_check :
    ∃ out, removeWhiteBackground zeroRowsMat = .ok out ∧
      out.rows = 0 ∧ out.cols = 5 ∧ (out.rows = 0 ∨ out.cols = 5) := by
  obtain ⟨out, h1, h2, h3, h4⟩ :=
    (matting_degenerate_ok zeroRowsMat).2 rfl (Or.inl rfl)
  exact ⟨out, h1, h2, h3, Or.inl h2⟩

/-! ## The selection loop (src/main.go:64-78) -/

/-- The bounding-rectangle area of a contour, the ranking key of the
selection loop. -/
def bbArea (pts : List Cell) : Nat :=
  (boundingRect pts).w * (boundingRect pts).h

theorem foldl_select_keep (l : List (List Cell)) :
    ∀ acc : Nat × Rect, (∀ c ∈ l, bbArea c ≤ acc.1) → l.foldl selectStep acc = acc := by
  induction l with
  | nil => intro acc _; rfl
  | cons a t ih =>
    intro acc h
    have ha : selectStep acc a = acc := by
      unfold selectStep
      rw [if_neg]
      have := h a (by simp)
      unfold bbArea at this
      omega
    rw [List.foldl_cons, ha]
    exact ih acc (fun c hc => h c (by simp [hc]))

theorem foldl_select_first (l₁ : List (List Cell)) :
    ∀ (acc : Nat × Rect) (c : List Cell) (l₂ : List (List Cell)),
      acc.1 < bbArea c → (∀ d ∈ l₁, bbArea d < bbArea c) →
      (∀ d ∈ l₂, bbArea d ≤ bbArea c) →
      ((l₁ ++ c :: l₂).foldl selectStep acc).2 = boundingRect c := by
  induction l₁ with
  | nil =>
    intro acc c l₂ hacc _ hafter
    have hc : selectStep acc c = (bbArea c, boundingRect c) := by
      unfold selectStep bbArea at *
      rw [if_pos]
      omega
    rw [List.nil_append, List.foldl_cons, hc,
      foldl_select_keep l₂ (bbArea c, boundingRect c) (fun d hd => hafter d hd)]
  | cons d t ih =>
    intro acc c l₂ hacc hbefore hafter
    rw [List.cons_append, List.foldl_cons]
    refine ih (selectStep acc d) c l₂ ?_ (fun e he => hbefore e (by simp [he])) hafter
    have hd := hbefore d (by simp)
    unfold selectStep bbArea at *
    split <;> omega

/-! ## C3 and C9: ranking by bounding-box area -/

/-- C3: among two contours with different bounding-box areas the loop
selects the bounding box of the one with the strictly larger area,
whichever order the extraction returned them in — and since the ranking
only reads each contour's bounding rectangle, the number of foreground
points inside (sparse or dense ink) is irrelevant. -/
theorem largest_bbox_area_wins (c1 c2 : List Cell) (h : bbArea c2 < bbArea c1) :
    largestRect [c1, c2] = boundingRect c1 ∧
      largestRect [c2, c1] = boundingRect c1 := by
  constructor
  · exact foldl_select_first [] (0, ⟨0, 0, 0, 0⟩) c1 [c2] (by omega)
      (by simp) (by intro d hd; simp at hd; subst hd; omega)
  · exact foldl_select_first [c2] (0, ⟨0, 0, 0, 0⟩) c1 [] (by omega)
      (by intro d hd; simp at hd; subst hd; omega) (by simp)

/-- A sparse blob: two points spanning a 10x10 bounding box (area 100). -/
def sparseBlob : List Cell :=
  [(20, 20), (29, 29)]

/-- A dense blob: nine points filling a 3x3 bounding box (area 9). -/
def denseBlob : List Cell :=
  [(0, 0), (0, 1), (0, 2), (1, 0), (1, 1), (1, 2), (2, 0), (2, 1), (2, 2)]

/-- C3 witness: the sparse 2-point blob with the 10x10 bounding box beats
the dense 9-point blob with the 3x3 bounding box in both orders. -/
theorem largest_bbox_area_wins_check :
    largestRect [sparseBlob, denseBlob] = ⟨20, 20, 10, 10⟩ ∧
      largestRect [denseBlob, sparseBlob] = ⟨20, 20, 10, 10⟩ := by
  have h := largest_bbox_area_wins sparseBlob denseBlob (by decide)
  exact ⟨h.1.trans (by decide), h.2.trans (by decide)⟩

/-- C9: when several contours attain the maximal bounding-box area, the
loop returns the bounding box of the first such contour in extraction
order — contours before it are strictly smaller, contours after it never
replace the running maximum because the comparison is strict. -/
theorem tie_break_first (l₁ l₂ : List (List Cell)) (c : List Cell)
    (hpos : 0 < bbArea c)
    (hbefore : ∀ d ∈ l₁, bbArea d < bbArea c)
    (hafter : ∀ d ∈ l₂, bbArea d ≤ bbArea c) :
    largestRect (l₁ ++ c :: l₂) = boundingRect c :=
  foldl_select_first l₁ (0, ⟨0, 0, 0, 0⟩) c l₂ hpos hbefore hafter

/-- A first blob with a 2x2 bounding box at the origin. -/
def tieBlobA : List Cell :=
  [(0, 0), (1, 1)]

/-- A second blob with an equal-area 2x2 bounding box elsewhere. -/
def tieBlobB : List Cell :=
  [(5, 5), (6, 6)]

/-- C9 witness: two blobs of equal bounding-box area 4; the first one in
extraction order is selected. -/
theorem tie_break_first_check :
    bbArea tieBlobA = bbArea tieBlobB ∧
      largestRect [tieBlobA, tieBlobB] = ⟨0, 0, 2, 2⟩ := by
  refine ⟨by decide, ?_⟩
  exact (tie_break_first [] [tieBlobB] tieBlobA (by decide) (by simp)
    (by decide)).trans (by decide)

/-! ## Connected-component machinery -/

/-- A cell set is saturated when one growth step adds nothing. -/
def Saturated (fg S : List Cell) : Prop :=
  growOnce fg S = S

theorem subset_growOnce (fg S : List Cell) : S ⊆ growOnce fg S :=
  fun _ hc => List.mem_append_left _ hc

theorem growOnce_subset (fg S T : List Cell) (hS : S ⊆ T) (hfg : ∀ c ∈ fg, c ∈ T) :
    growOnce fg S ⊆ T := by
  intro c hc
  rcases List.mem_append.1 hc with h | h
  · exact hS h
  · exact hfg c (List.mem_filter.1 h).1

theorem mem_closure_of_mem (fg : List Cell) (n : Nat) :
    ∀ S c, c ∈ S → c ∈ closure fg n S := by
  induction n with
  | zero => intro S c hc; exact hc
  | succ n ih => intro S c hc; exact ih _ _ (subset_growOnce fg S hc)

theorem closure_subset (fg T : List Cell) (hfg : ∀ c ∈ fg, c ∈ T) (n : Nat) :
    ∀ S, S ⊆ T → closure fg n S ⊆ T := by
  induction n with
  | zero => intro S hS; exact hS
  | succ n ih => intro S hS; exact ih _ (growOnce_subset fg S T hS hfg)

theorem growOnce_nodup (fg S : List Cell) (hfg : fg.Nodup) (hS : S.Nodup) :
    (growOnce fg S).Nodup := by
  unfold growOnce
  refine List.Nodup.append hS (hfg.filter _) ?_
  intro a haS hafil
  have h := of_decide_eq_true (List.mem_filter.1 hafil).2
  exact h.1 haS

theorem closure_of_saturated (fg : List Cell) (n : Nat) :
    ∀ S, Saturated fg S → closure fg n S = S := by
  induction n with
  | zero => intro S _; rfl
  | succ n ih =>
    intro S hsat
    show closure fg n (growOnce fg S) = S
    rw [hsat]
    exact ih S hsat

theorem growOnce_eq_or_lt (fg S : List Cell) :
    growOnce fg S = S ∨ S.length < (growOnce fg S).length := by
  unfold growOnce
  rcases hf : fg.filter (fun c => decide (c ∉ S ∧ ∃ s ∈ S, Adj s c)) with _ | ⟨a, t⟩
  · left
    rw [List.append_nil]
  · right
    rw [List.length_append]
    simp

theorem closure_saturated (fg : List Cell) (hfg : fg.Nodup) (T : List Cell)
    (hfgT : ∀ c ∈ fg, c ∈ T) :
    ∀ (n : Nat) (S : List Cell), S.Nodup → S ⊆ T → T.length ≤ n + S.length →
      Saturated fg (closure fg n S) := by
  intro n
  induction n with
  | zero =>
    intro S hS hST hlen
    rcases growOnce_eq_or_lt fg S with h | h
    · exact h
    · exfalso
      have h1 : (growOnce fg S).Nodup := growOnce_nodup fg S hfg hS
      have h2 : growOnce fg S ⊆ T := growOnce_subset fg S T hST hfgT
      have h3 := (List.subperm_of_subset h1 h2).length_le
      omega
  | succ n ih =>
    intro S hS hST hlen
    show Saturated fg (closure fg n (growOnce fg S))
    rcases growOnce_eq_or_lt fg S with h | h
    · rw [h, closure_of_saturated fg n S h]
      exact h
    · exact ih (growOnce fg S) (growOnce_nodup fg S hfg hS)
        (growOnce_subset fg S T hST hfgT) (by omega)

theorem component_saturated (fg : List Cell) (hfg : fg.Nodup) (seed : Cell) :
    Saturated fg (component fg seed) := by
  refine closure_saturated fg hfg (seed :: fg)
    (fun c hc => List.mem_cons_of_mem _ hc) fg.length [seed]
    (List.nodup_singleton seed) ?_ (by simp)
  intro c hc
  rw [List.mem_singleton] at hc
  subst hc
  exact List.mem_cons_self _ _

theorem saturated_closed (fg S : List Cell) (hsat : Saturated fg S) (c : Cell)
    (hcfg : c ∈ fg) (hadj : ∃ s ∈ S, Adj s c) : c ∈ S := by
  by_cases hc : c ∈ S
  · exact hc
  · have hmem : c ∈ growOnce fg S := by
      unfold growOnce
      exact List.mem_append_right _
        (List.mem_filter.2 ⟨hcfg, decide_eq_true ⟨hc, hadj⟩⟩)
    rw [hsat] at hmem
    exact hmem

theorem seed_mem_component (fg : List Cell) (seed : Cell) : seed ∈ component fg seed :=
  mem_closure_of_mem fg fg.length [seed] seed (List.mem_singleton.2 rfl)

theorem component_subset_fg (fg : List Cell) (seed : Cell) (hs : seed ∈ fg) :
    component fg seed ⊆ fg := by
  refine closure_subset fg fg (fun c hc => hc) fg.length [seed] ?_
  intro c hc
  rw [List.mem_singleton] at hc
  subst hc
  exact hs

theorem componentsAux_nil (fg : List Cell) :
    ∀ (l seen : List Cell), (∀ c ∈ l, c ∈ seen) → componentsAux fg l seen = [] := by
  intro l
  induction l with
  | nil => intro seen _; rfl
  | cons c rest ih =>
    intro seen h
    simp only [componentsAux]
    rw [if_pos (h c (by simp))]
    exact ih seen (fun d hd => h d (by simp [hd]))

theorem componentsAux_first (fg l seen : List Cell) (c : Cell) (hseen : c ∉ seen)
    (hcover : ∀ d ∈ l, d ∈ seen ++ component fg c) :
    componentsAux fg (c :: l) seen = [component fg c] := by
  simp only [componentsAux]
  rw [if_neg hseen, componentsAux_nil fg l (seen ++ component fg c) hcover]

theorem componentsOf_eq_nil_iff (fg : List Cell) : componentsOf fg = [] ↔ fg = [] := by
  constructor
  · intro h
    cases hf : fg with
    | nil => rfl
    | cons c rest =>
      rw [componentsOf, hf] at h
      simp only [componentsAux] at h
      rw [if_neg (by simp)] at h
      exact absurd h (by simp)
  · intro h
    rw [componentsOf, h]
    rfl

theorem mem_componentsAux (fg : List Cell) :
    ∀ (l seen : List Cell), l ⊆ fg → ∀ comp ∈ componentsAux fg l seen,
      ∃ s ∈ fg, comp = component fg s := by
  intro l
  induction l with
  | nil => intro seen _ comp hcomp; exact absurd hcomp (by simp [componentsAux])
  | cons c rest ih =>
    intro seen hl comp hcomp
    simp only [componentsAux] at hcomp
    split at hcomp
    · exact ih seen (fun d hd => hl (by simp [hd])) comp hcomp
    · rcases List.mem_cons.1 hcomp with h | h
      · exact ⟨c, hl (by simp), h⟩
      · exact ih _ (fun d hd => hl (by simp [hd])) comp h

theorem mem_componentsOf (fg : List Cell) (comp : List Cell)
    (h : comp ∈ componentsOf fg) : ∃ s ∈ fg, comp = component fg s :=
  mem_componentsAux fg fg [] (fun _ hc => hc) comp h

/-! ## Bounding rectangles of point sets -/

theorem fmin_le_init (g : Cell → Nat) (l : List Cell) :
    ∀ a : Nat, l.foldl (fun b q => min b (g q)) a ≤ a := by
  induction l with
  | nil => intro a; exact le_refl a
  | cons p t ih =>
    intro a
    exact le_trans (ih (min a (g p))) (min_le_left _ _)

theorem fmin_le_mem (g : Cell → Nat) (l : List Cell) :
    ∀ (a : Nat) (q : Cell), q ∈ l → l.foldl (fun b q => min b (g q)) a ≤ g q := by
  induction l with
  | nil => intro a q hq; exact absurd hq (by simp)
  | cons p t ih =>
    intro a q hq
    rcases List.mem_cons.1 hq with h | h
    · subst h
      exact le_trans (fmin_le_init g t (min a (g q))) (min_le_right _ _)
    · exact ih (min a (g p)) q h

theorem fmin_attained (g : Cell → Nat) (l : List Cell) :
    ∀ a : Nat, l.foldl (fun b q => min b (g q)) a = a ∨
      ∃ q ∈ l, l.foldl (fun b q => min b (g q)) a = g q := by
  induction l with
  | nil => intro a; exact Or.inl rfl
  | cons p t ih =>
    intro a
    rcases ih (min a (g p)) with h | ⟨q, hq, h⟩
    · rcases min_choice a (g p) with hm | hm
      · exact Or.inl (h.trans hm)
      · exact Or.inr ⟨p, by simp, h.trans hm⟩
    · exact Or.inr ⟨q, by simp [hq], h⟩

theorem fmax_ge_init (g : Cell → Nat) (l : List Cell) :
    ∀ a : Nat, a ≤ l.foldl (fun b q => max b (g q)) a := by
  induction l with
  | nil => intro a; exact le_refl a
  | cons p t ih =>
    intro a
    exact le_trans (le_max_left _ _) (ih (max a (g p)))

theorem fmax_ge_mem (g : Cell → Nat) (l : List Cell) :
    ∀ (a : Nat) (q : Cell), q ∈ l → g q ≤ l.foldl (fun b q => max b (g q)) a := by
  induction l with
  | nil => intro a q hq; exact absurd hq (by simp)
  | cons p t ih =>
    intro a q hq
    rcases List.mem_cons.1 hq with h | h
    · subst h
      exact le_trans (le_max_right _ _) (fmax_ge_init g t (max a (g q)))
    · exact ih (max a (g p)) q h

theorem fmax_attained (g : Cell → Nat) (l : List Cell) :
    ∀ a : Nat, l.foldl (fun b q => max b (g q)) a = a ∨
      ∃ q ∈ l, l.foldl (fun b q => max b (g q)) a = g q := by
  induction l with
  | nil => intro a; exact Or.inl rfl
  | cons p t ih =>
    intro a
    rcases ih (max a (g p)) with h | ⟨q, hq, h⟩
    · rcases max_choice a (g p) with hm | hm
      · exact Or.inl (h.trans hm)
      · exact Or.inr ⟨p, by simp, h.trans hm⟩
    · exact Or.inr ⟨q, by simp [hq], h⟩

theorem bbArea_pos (pts : List Cell) (hne : pts ≠ []) : 0 < bbArea pts := by
  cases pts with
  | nil => exact absurd rfl hne
  | cons p ps =>
    simp only [bbArea, boundingRect]
    exact Nat.mul_pos (by omega) (by omega)

theorem boundingRect_spec (pts : List Cell) (hne : pts ≠ []) (rows cols : Nat)
    (hbound : ∀ c ∈ pts, c.1 < rows ∧ c.2 < cols) :
    0 < (boundingRect pts).w ∧ 0 < (boundingRect pts).h ∧
      (boundingRect pts).x + (boundingRect pts).w ≤ cols ∧
      (boundingRect pts).y + (boundingRect pts).h ≤ rows := by
  cases pts with
  | nil => exact absurd rfl hne
  | cons p ps =>
    simp only [boundingRect]
    have hx0 : (ps.foldl (fun a q => min a q.2) p.2) ≤ p.2 := fmin_le_init _ ps p.2
    have hx1 : p.2 ≤ (ps.foldl (fun a q => max a q.2) p.2) := fmax_ge_init _ ps p.2
    have hy0 : (ps.foldl (fun a q => min a q.1) p.1) ≤ p.1 := fmin_le_init _ ps p.1
    have hy1 : p.1 ≤ (ps.foldl (fun a q => max a q.1) p.1) := fmax_ge_init _ ps p.1
    have hxcol : (ps.foldl (fun a q => max a q.2) p.2) < cols := by
      rcases fmax_attained (fun q => q.2) ps p.2 with h | ⟨q, hq, h⟩
      · rw [h]; exact (hbound p (by simp)).2
      · rw [h]; exact (hbound q (by simp [hq])).2
    have hyrow : (ps.foldl (fun a q => max a q.1) p.1) < rows := by
      rcases fmax_attained (fun q => q.1) ps p.1 with h | ⟨q, hq, h⟩
      · rw [h]; exact (hbound p (by simp)).1
      · rw [h]; exact (hbound q (by simp [hq])).1
    refine ⟨by omega, by omega, by omega, by omega⟩

theorem boundingRect_eq_of_bounds (pts : List Cell) (R : Rect)
    (hw : 0 < R.w) (hh : 0 < R.h)
    (htl : (R.y, R.x) ∈ pts)
    (hbr : (R.y + R.h - 1, R.x + R.w - 1) ∈ pts)
    (hmem : ∀ c ∈ pts, R.y ≤ c.1 ∧ c.1 < R.y + R.h ∧ R.x ≤ c.2 ∧ c.2 < R.x + R.w) :
    boundingRect pts = R := by
  obtain ⟨Rx, Ry, Rw, Rh⟩ := R
  cases pts with
  | nil => exact absurd htl (by simp)
  | cons p ps =>
    simp only [boundingRect, Rect.mk.injEq]
    have hp := hmem p (by simp)
    have hx0p : (ps.foldl (fun a q => min a q.2) p.2) ≤ p.2 := fmin_le_init _ ps p.2
    have hy0p : (ps.foldl (fun a q => min a q.1) p.1) ≤ p.1 := fmin_le_init _ ps p.1
    have hx1p : p.2 ≤ (ps.foldl (fun a q => max a q.2) p.2) := fmax_ge_init _ ps p.2
    have hy1p : p.1 ≤ (ps.foldl (fun a q => max a q.1) p.1) := fmax_ge_init _ ps p.1
    have hx0lo : Rx ≤ (ps.foldl (fun a q => min a q.2) p.2) := by
      rcases fmin_attained (fun q => q.2) ps p.2 with h | ⟨q, hq, h⟩
      · rw [h]; exact hp.2.2.1
      · rw [h]; exact (hmem q (by simp [hq])).2.2.1
    have hy0lo : Ry ≤ (ps.foldl (fun a q => min a q.1) p.1) := by
      rcases fmin_attained (fun q => q.1) ps p.1 with h | ⟨q, hq, h⟩
      · rw [h]; exact hp.1
      · rw [h]; exact (hmem q (by simp [hq])).1
    have hx1hi : (ps.foldl (fun a q => max a q.2) p.2) < Rx + Rw := by
      rcases fmax_attained (fun q => q.2) ps p.2 with h | ⟨q, hq, h⟩
      · rw [h]; exact hp.2.2.2
      · rw [h]; exact (hmem q (by simp [hq])).2.2.2
    have hy1hi : (ps.foldl (fun a q => max a q.1) p.1) < Ry + Rh := by
      rcases fmax_attained (fun q => q.1) ps p.1 with h | ⟨q, hq, h⟩
      · rw [h]; exact hp.2.1
      · rw [h]; exact (hmem q (by simp [hq])).2.1
    have hx0hi : (ps.foldl (fun a q => min a q.2) p.2) ≤ Rx := by
      rcases List.mem_cons.1 htl with h | h
      · have : p.2 = Rx := by rw [← h]
        omega
      · exact le_trans (fmin_le_mem _ ps p.2 _ h) (by simp)
    have hy0hi : (ps.foldl (fun a q => min a q.1) p.1) ≤ Ry := by
      rcases List.mem_cons.1 htl with h | h
      · have : p.1 = Ry := by rw [← h]
        omega
      · exact le_trans (fmin_le_mem _ ps p.1 _ h) (by simp)
    have hx1lo : Rx + Rw - 1 ≤ (ps.foldl (fun a q => max a q.2) p.2) := by
      rcases List.mem_cons.1 hbr with h | h
      · have : p.2 = Rx + Rw - 1 := by rw [← h]
        omega
      · exact le_trans (by simp) (fmax_ge_mem _ ps p.2 _ h)
    have hy1lo : Ry + Rh - 1 ≤ (ps.foldl (fun a q => max a q.1) p.1) := by
      rcases List.mem_cons.1 hbr with h | h
      · have : p.1 = Ry + Rh - 1 := by rw [← h]
        omega
      · exact le_trans (by simp) (fmax_ge_mem _ ps p.1 _ h)
    refine ⟨by omega, by omega, by omega, by omega⟩

/-! ## Membership of the winning rectangle -/

theorem foldl_select_mem (t : List (List Cell)) :
    ∀ acc : Nat × Rect, (t.foldl selectStep acc).2 = acc.2 ∨
      ∃ d ∈ t, (t.foldl selectStep acc).2 = boundingRect d := by
  induction t with
  | nil => intro acc; exact Or.inl rfl
  | cons d t ih =>
    intro acc
    rw [List.foldl_cons]
    rcases ih (selectStep acc d) with h | ⟨e, he, h⟩
    · rw [h]
      by_cases hcond : (boundingRect d).w * (boundingRect d).h > acc.1
      · refine Or.inr ⟨d, by simp, ?_⟩
        unfold selectStep
        rw [if_pos hcond]
      · refine Or.inl ?_
        unfold selectStep
        rw [if_neg hcond]
    · exact Or.inr ⟨e, by simp [he], h⟩

theorem largestRect_mem (cs : List (List Cell)) (hne : cs ≠ [])
    (hpos : ∀ c ∈ cs, 0 < bbArea c) :
    ∃ c ∈ cs, largestRect cs = boundingRect c := by
  cases cs with
  | nil => exact absurd rfl hne
  | cons c t =>
    unfold largestRect
    rw [List.foldl_cons]
    have hc : selectStep (0, ⟨0, 0, 0, 0⟩) c = (bbArea c, boundingRect c) := by
      have h := hpos c (by simp)
      unfold bbArea at h ⊢
      unfold selectStep
      rw [if_pos (by simpa using h)]
    rw [hc]
    rcases foldl_select_mem t (bbArea c, boundingRect c) with h | ⟨e, he, h⟩
    · exact ⟨c, by simp, h⟩
    · exact ⟨e, by simp [he], h⟩

theorem largestRect_singleton (c : List Cell) (h : 0 < bbArea c) :
    largestRect [c] = boundingRect c := by
  unfold bbArea at h
  unfold largestRect
  rw [List.foldl_cons, List.foldl_nil]
  unfold selectStep
  rw [if_pos (by simpa using h)]

/-! ## Cell membership -/

theorem mem_allCells (rows cols : Nat) (c : Cell) :
    c ∈ allCells rows cols ↔ c.1 < rows ∧ c.2 < cols := by
  obtain ⟨a, b⟩ := c
  simp only [allCells, List.mem_flatMap, List.mem_map, List.mem_range]
  constructor
  · rintro ⟨j, hj, i, hi, h⟩
    rw [Prod.mk.injEq] at h
    obtain ⟨h1, h2⟩ := h
    subst h1
    subst h2
    exact ⟨hj, hi⟩
  · rintro ⟨h1, h2⟩
    exact ⟨a, h1, b, h2, rfl⟩

theorem mem_fgCells (m : Mat) (c : Cell) :
    c ∈ fgCells m ↔ (c.1 < m.rows ∧ c.2 < m.cols) ∧ maskAt m c.1 c.2 ≠ 0 := by
  rw [fgCells, List.mem_filter, mem_allCells]
  unfold isFg
  simp

theorem mem_rectCells (R : Rect) (c : Cell) :
    c ∈ rectCells R ↔ R.y ≤ c.1 ∧ c.1 < R.y + R.h ∧ R.x ≤ c.2 ∧ c.2 < R.x + R.w := by
  obtain ⟨a, b⟩ := c
  simp only [rectCells, List.mem_flatMap, List.mem_map, List.mem_range]
  constructor
  · rintro ⟨j, hj, i, hi, h⟩
    rw [Prod.mk.injEq] at h
    obtain ⟨h1, h2⟩ := h
    subst h1
    subst h2
    constructor
    · omega
    · refine ⟨by omega, by omega, by omega⟩
  · rintro ⟨h1, h2, h3, h4⟩
    refine ⟨a - R.y, by omega, b - R.x, by omega, ?_⟩
    rw [Prod.mk.injEq]
    omega

/-! ## A solid rectangle forms a single component -/

theorem saturated_covers_rect (fg : List Cell) (R : Rect)
    (hfgR : ∀ c : Cell, c ∈ fg ↔ c ∈ rectCells R)
    (S : List Cell) (hsat : Saturated fg S)
    (sy sx : Nat) (hseed : ((sy, sx) : Cell) ∈ S)
    (hy1 : R.y ≤ sy) (hy2 : sy < R.y + R.h) (hx1 : R.x ≤ sx) (hx2 : sx < R.x + R.w) :
    ∀ c ∈ rectCells R, c ∈ S := by
  have hstep : ∀ a b a' b', ((a, b) : Cell) ∈ S →
      R.y ≤ a' → a' < R.y + R.h → R.x ≤ b' → b' < R.x + R.w →
      ((a, b) : Cell) ≠ (a', b') → a ≤ a' + 1 → a' ≤ a + 1 → b ≤ b' + 1 → b' ≤ b + 1 →
      ((a', b') : Cell) ∈ S := by
    intro a b a' b' hab ha1 ha2 hb1 hb2 hne h1 h2 h3 h4
    refine saturated_closed fg S hsat (a', b') ?_ ⟨(a, b), hab, hne, h1, h2, h3, h4⟩
    exact (hfgR _).2 ((mem_rectCells R _).2 ⟨ha1, ha2, hb1, hb2⟩)
  have hrow : ∀ b', R.x ≤ b' → b' < R.x + R.w → ((sy, b') : Cell) ∈ S := by
    have hright : ∀ b', sx ≤ b' → b' < R.x + R.w → ((sy, b') : Cell) ∈ S := by
      intro b' hb'
      induction b', hb' using Nat.le_induction with
      | base => intro _; exact hseed
      | succ n hn ih =>
        intro hlt
        refine hstep sy n sy (n + 1) (ih (by omega)) hy1 hy2 (by omega) hlt ?_
          (by omega) (by omega) (by omega) (by omega)
        intro hcontra
        rw [Prod.mk.injEq] at hcontra
        omega
    have hleft : ∀ d, d ≤ sx - R.x → ((sy, sx - d) : Cell) ∈ S := by
      intro d
      induction d with
      | zero => intro _; simpa using hseed
      | succ k ih =>
        intro hk
        refine hstep sy (sx - k) sy (sx - (k + 1)) (ih (by omega)) hy1 hy2
          (by omega) (by omega) ?_ (by omega) (by omega) (by omega) (by omega)
        intro hcontra
        rw [Prod.mk.injEq] at hcontra
        omega
    intro b' hb1' hb2'
    rcases le_or_lt sx b' with h | h
    · exact hright b' h hb2'
    · have hmem := hleft (sx - b') (by omega)
      rwa [show sx - (sx - b') = b' by omega] at hmem
  have hcol : ∀ a' b', R.y ≤ a' → a' < R.y + R.h → R.x ≤ b' → b' < R.x + R.w →
      ((a', b') : Cell) ∈ S := by
    intro a' b' ha1' ha2' hb1' hb2'
    have hbase : ((sy, b') : Cell) ∈ S := hrow b' hb1' hb2'
    rcases le_or_lt sy a' with h | h
    · have hdown : ∀ a, sy ≤ a → a < R.y + R.h → ((a, b') : Cell) ∈ S := by
        intro a ha
        induction a, ha using Nat.le_induction with
        | base => intro _; exact hbase
        | succ n hn ih =>
          intro hlt
          refine hstep n b' (n + 1) b' (ih (by omega)) (by omega) hlt hb1' hb2' ?_
            (by omega) (by omega) (by omega) (by omega)
          intro hcontra
          rw [Prod.mk.injEq] at hcontra
          omega
      exact hdown a' h ha2'
    · have hup : ∀ d, d ≤ sy - R.y → ((sy - d, b') : Cell) ∈ S := by
        intro d
        induction d with
        | zero => intro _; simpa using hbase
        | succ k ih =>
          intro hk
          refine hstep (sy - k) b' (sy - (k + 1)) b' (ih (by omega)) (by omega)
            (by omega) hb1' hb2' ?_ (by omega) (by omega) (by omega) (by omega)
          intro hcontra
          rw [Prod.mk.injEq] at hcontra
          omega
      have hmem := hup (sy - a') (by omega)
      rwa [show sy - (sy - a') = a' by omega] at hmem
  intro c hc
  obtain ⟨a, b⟩ := c
  have h := (mem_rectCells R (a, b)).1 hc
  exact hcol a b h.1 h.2.1 h.2.2.1 h.2.2.2

theorem componentsOf_rect (fg : List Cell) (R : Rect)
    (hnd : fg.Nodup) (hfgR : ∀ c : Cell, c ∈ fg ↔ c ∈ rectCells R)
    (hw : 0 < R.w) (hh : 0 < R.h) :
    ∃ comp, componentsOf fg = [comp] ∧ ∀ c : Cell, c ∈ comp ↔ c ∈ rectCells R := by
  have htl : ((R.y, R.x) : Cell) ∈ fg :=
    (hfgR _).2 ((mem_rectCells R _).2 ⟨by omega, by omega, by omega, by omega⟩)
  have hne : fg ≠ [] := List.ne_nil_of_mem htl
  obtain ⟨c, rest, hr⟩ := List.exists_cons_of_ne_nil hne
  subst hr
  have hcb := (mem_rectCells R c).1 ((hfgR c).1 (by simp))
  have hsat : Saturated (c :: rest) (component (c :: rest) c) :=
    component_saturated (c :: rest) hnd c
  have hseedmem : c ∈ component (c :: rest) c := seed_mem_component _ c
  have hcover : ∀ d ∈ rectCells R, d ∈ component (c :: rest) c := by
    refine saturated_covers_rect (c :: rest) R hfgR (component (c :: rest) c) hsat
      c.1 c.2 ?_ hcb.1 hcb.2.1 hcb.2.2.1 hcb.2.2.2
    exact hseedmem
  refine ⟨component (c :: rest) c, ?_, ?_⟩
  · rw [componentsOf]
    refine componentsAux_first (c :: rest) rest [] c (by simp) ?_
    intro d hd
    rw [List.nil_append]
    exact hcover d ((hfgR d).1 (by simp [hd]))
  · intro d
    constructor
    · intro hd
      exact (hfgR d).1 (component_subset_fg (c :: rest) c (by simp) hd)
    · intro hd
      exact hcover d hd

/-! ## C4: the two failure modes -/

theorem fgCells_eq_nil_iff (img : Mat) :
    fgCells img = [] ↔ ∀ y x, y < img.rows → x < img.cols → maskAt img y x = 0 := by
  rw [fgCells, List.filter_eq_nil_iff]
  constructor
  · intro h y x hy hx
    have hc := h (y, x) ((mem_allCells _ _ _).2 ⟨hy, hx⟩)
    unfold isFg at hc
    simpa using hc
  · intro h c hc
    have hb := (mem_allCells _ _ c).1 hc
    unfold isFg
    simp [h c.1 c.2 hb.1 hb.2]

/-- An all-white 2x2 page: every pixel is above the threshold, so the
mask has no foreground cell. -/
def whitePage : Mat :=
  ⟨2, 2, 3, fun _ _ => ⟨255, 255, 255⟩⟩

/-- C4: extractSignature fails with invalidInput exactly when the decode
failed or the image is zero-sized, and with noRegionFound exactly when the
image is non-empty but its thresholded mask has zero connected foreground
regions (equivalently, no foreground pixel at all); the two errors are
distinct constructors, and whenever an error is returned no bounding box
or cropped image is produced. -/
theorem extract_error_modes (d : Option Mat) :
    (extractSignature d = .error .invalidInput ↔
      d = none ∨ ∃ img, d = some img ∧ (img.rows = 0 ∨ img.cols = 0)) ∧
      (extractSignature d = .error .noRegionFound ↔
        ∃ img, d = some img ∧ ¬(img.rows = 0 ∨ img.cols = 0) ∧
          componentsOf (fgCells img) = []) ∧
      (∀ img : Mat, componentsOf (fgCells img) = [] ↔
        ∀ y x, y < img.rows → x < img.cols → maskAt img y x = 0) ∧
      (∀ e, extractSignature d = .error e → ∀ r m, extractSignature d ≠ .ok (r, m)) := by
  refine ⟨?_, ?_, ?_, ?_⟩
  · cases d with
    | none => simp [extractSignature]
    | some img =>
      by_cases h0 : img.rows = 0 ∨ img.cols = 0
      · simp [extractSignature, h0]
      · by_cases hc : componentsOf (fgCells img) = [] <;>
          simp [extractSignature, h0, hc]
  · cases d with
    | none => simp [extractSignature]
    | some img =>
      by_cases h0 : img.rows = 0 ∨ img.cols = 0
      · simp only [extractSignature, if_pos h0]
        simp only [Except.error.injEq, Option.some.injEq]
        constructor
        · intro h
          exact absurd h (by simp)
        · rintro ⟨img', rfl, hno, _⟩
          exact absurd h0 hno
      · by_cases hc : componentsOf (fgCells img) = []
        · simp [extractSignature, h0, hc]
          exact not_or.1 h0
        · simp [extractSignature, h0, hc]
  · intro img
    rw [componentsOf_eq_nil_iff, fgCells_eq_nil_iff]
  · intro e he r m hok
    rw [he] at hok
    exact absurd hok (by simp)

/-- C4 witness: the all-white page yields noRegionFound; a failed decode
and a zero-row image yield invalidInput. -/
theorem extract_error_modes_check :
    extractSignature (some whitePage) = .error .noRegionFound ∧
      extractSignature none = .error .invalidInput ∧
      extractSignature (some ⟨0, 7, 3, fun _ _ => ⟨0, 0, 0⟩⟩) = .error .invalidInput := by
  refine ⟨?_, ?_, ?_⟩
  · exact (extract_error_modes (some whitePage)).2.1.mpr
      ⟨whitePage, rfl, by decide, by decide⟩
  · exact (extract_error_modes none).1.mpr (Or.inl rfl)
  · exact (extract_error_modes _).1.mpr (Or.inr ⟨_, rfl, Or.inl rfl⟩)

/-! ## C8: invariants of a successful extraction -/

/-- C8: whenever extractSignature succeeds, the returned bounding box has
positive width and height, lies fully inside the input image, and the
cropped image has exactly the box's height and width. -/
theorem extract_box_invariants (img : Mat) (r : Rect) (m : Mat)
    (h : extractSignature (some img) = .ok (r, m)) :
    0 < r.w ∧ 0 < r.h ∧ r.x + r.w ≤ img.cols ∧ r.y + r.h ≤ img.rows ∧
      m.rows = r.h ∧ m.cols = r.w := by
  simp only [extractSignature] at h
  split at h
  · exact absurd h (by simp)
  · split at h
    · exact absurd h (by simp)
    · rename_i h0 hcne
      rw [Except.ok.injEq, Prod.mk.injEq] at h
      obtain ⟨h1, h2⟩ := h
      subst h1
      subst h2
      have hpos : ∀ c ∈ componentsOf (fgCells img), 0 < bbArea c := by
        intro c hc
        obtain ⟨s, _, rfl⟩ := mem_componentsOf _ c hc
        exact bbArea_pos _ (List.ne_nil_of_mem (seed_mem_component _ s))
      obtain ⟨c, hcmem, heq⟩ := largestRect_mem _ hcne hpos
      rw [heq]
      obtain ⟨s, hs, rfl⟩ := mem_componentsOf _ c hcmem
      have hb : ∀ e ∈ component (fgCells img) s, e.1 < img.rows ∧ e.2 < img.cols := by
        intro e he
        exact ((mem_fgCells img e).1 (component_subset_fg _ s hs he)).1
      have hspec := boundingRect_spec (component (fgCells img) s)
        (List.ne_nil_of_mem (seed_mem_component _ s)) img.rows img.cols hb
      exact ⟨hspec.1, hspec.2.1, hspec.2.2.1, hspec.2.2.2, rfl, rfl⟩

/-- A 3x3 white page with a single black pixel at (1, 1). -/
def dotPage : Mat :=
  ⟨3, 3, 3, fun y x => if y = 1 ∧ x = 1 then ⟨0, 0, 0⟩ else ⟨255, 255, 255⟩⟩

/-- C8 witness: on the single-dot page the extraction succeeds with the
1x1 box at (1, 1), which satisfies all the invariants. -/
theorem extract_box_invariants_check :
    ∃ r m, extractSignature (some dotPage) = .ok (r, m) ∧
      0 < Rect.w r ∧ 0 < Rect.h r ∧ Rect.x r + Rect.w r ≤ 3 ∧
      Rect.y r + Rect.h r ≤ 3 ∧ Mat.rows m = Rect.h r ∧ Mat.cols m = Rect.w r := by
  have hcomps : componentsOf (fgCells dotPage) = [[(1, 1)]] := by decide
  have hok : extractSignature (some dotPage) =
      .ok (⟨1, 1, 1, 1⟩, crop dotPage ⟨1, 1, 1, 1⟩) := by
    simp only [extractSignature]
    rw [if_neg (by decide), hcomps, if_neg (by simp)]
    have hl : largestRect [[(1, 1)]] = ⟨1, 1, 1, 1⟩ := by decide
    rw [hl]
  have h := extract_box_invariants dotPage ⟨1, 1, 1, 1⟩ (crop dotPage ⟨1, 1, 1, 1⟩) hok
  exact ⟨⟨1, 1, 1, 1⟩, crop dotPage ⟨1, 1, 1, 1⟩, hok,
    h.1, h.2.1, h.2.2.1, h.2.2.2.1, h.2.2.2.2.1, h.2.2.2.2.2⟩

/-! ## C5: the end-to-end synthetic square -/

/-- The bounding box of the synthetic black square. -/
def sqRect : Rect :=
  ⟨40, 40, 20, 20⟩

theorem allCells_nodup (rows cols : Nat) : (allCells rows cols).Nodup := by
  have h : allCells rows cols = (List.range rows).product (List.range cols) := rfl
  rw [h]
  exact List.Nodup.product (List.nodup_range rows) (List.nodup_range cols)

theorem fgCells_nodup (m : Mat) : (fgCells m).Nodup :=
  (allCells_nodup m.rows m.cols).filter _

theorem maskAt_testPage (y x : Nat) :
    maskAt testPage y x = if 40 ≤ y ∧ y < 60 ∧ 40 ≤ x ∧ x < 60 then 255 else 0 := by
  by_cases hin : 40 ≤ y ∧ y < 60 ∧ 40 ≤ x ∧ x < 60
  · simp only [maskAt, grayAt, thresholdBinaryInv, testPage, if_pos hin]
    norm_num
  · simp only [maskAt, grayAt, thresholdBinaryInv, testPage, if_neg hin]
    norm_num

theorem fgCells_testPage_iff (c : Cell) :
    c ∈ fgCells testPage ↔ c ∈ rectCells sqRect := by
  obtain ⟨y, x⟩ := c
  rw [mem_fgCells, mem_rectCells]
  dsimp only
  rw [maskAt_testPage]
  by_cases hin : 40 ≤ y ∧ y < 60 ∧ 40 ≤ x ∧ x < 60
  · rw [if_pos hin]
    simp only [testPage, sqRect]
    omega
  · rw [if_neg hin]
    simp only [testPage, sqRect]
    omega

/-- C5: on the 100x100 white page with the 20x20 black square at (40, 40),
the pipeline locates exactly the square's bounding box and returns a 20x20
output whose pixels are all opaque black. -/
theorem pipeline_end_to_end :
    ∃ (r : Rect) (m : Mat) (out : RGBAImg),
      extractSignature (some testPage) = .ok (r, m) ∧ r = sqRect ∧
      removeWhiteBackground m = .ok out ∧ out.rows = 20 ∧ out.cols = 20 ∧
      ∀ y x, y < 20 → x < 20 → out.pix y x = ⟨0, 0, 0, 255⟩ := by
  obtain ⟨comp, hcomps, hmem⟩ :=
    componentsOf_rect (fgCells testPage) sqRect (fgCells_nodup testPage)
      fgCells_testPage_iff (by decide) (by decide)
  have hcompne : comp ≠ [] :=
    List.ne_nil_of_mem ((hmem (40, 40)).2 ((mem_rectCells _ _).2
      (by simp only [sqRect]; omega)))
  have hbb : boundingRect comp = sqRect := by
    refine boundingRect_eq_of_bounds comp sqRect (by decide) (by decide)
      ((hmem (sqRect.y, sqRect.x)).2 ((mem_rectCells _ _).2
        (by simp only [sqRect]; omega)))
      ((hmem (sqRect.y + sqRect.h - 1, sqRect.x + sqRect.w - 1)).2
        ((mem_rectCells _ _).2 (by simp only [sqRect]; omega))) ?_
    intro c hc
    exact (mem_rectCells sqRect c).1 ((hmem c).1 hc)
  have harea : 0 < bbArea comp := bbArea_pos comp hcompne
  have hok : extractSignature (some testPage) = .ok (sqRect, crop testPage sqRect) := by
    simp only [extractSignature]
    rw [if_neg (by decide), hcomps, if_neg (by simp),
      largestRect_singleton comp harea, hbb]
  refine ⟨sqRect, crop testPage sqRect,
    ⟨(crop testPage sqRect).rows, (crop testPage sqRect).cols,
      fun y x => mattePixel ((crop testPage sqRect).pix y x)⟩,
    hok, rfl, rfl, rfl, rfl, ?_⟩
  intro y x hy hx
  show mattePixel ((crop testPage sqRect).pix y x) = ⟨0, 0, 0, 255⟩
  have hpix : (crop testPage sqRect).pix y x = ⟨0, 0, 0⟩ := by
    simp only [crop, testPage, sqRect]
    rw [if_pos (by omega)]
  rw [hpix]
  decide

/-- C5 witness: the end-to-end theorem applied at the corner pixels of the
cropped output. -/
theorem pipeline_end_to_end_check :
    ∃ (r : Rect) (m : Mat) (out : RGBAImg),
      extractSignature (some testPage) = .ok (r, m) ∧
      removeWhiteBackground m = .ok out ∧
      out.pix 0 0 = ⟨0, 0, 0, 255⟩ ∧ out.pix 19 19 = ⟨0, 0, 0, 255⟩ := by
  obtain ⟨r, m, out, h1, _, h2, _, _, hpix⟩ := pipeline_end_to_end
  exact ⟨r, m, out, h1, h2, hpix 0 0 (by decide) (by decide),
    hpix 19 19 (by decide) (by decide)⟩

end PocPdf
